import Mathlib

/-!
Verification development for the gateway in `app/main.py`.

The file shallowly embeds the startup / background credential-validation
logic of `app/main.py` (the only source file of the repository), together
with models of the collaborating components (`APIKeyManager`,
`ResponseCacheManager`, `ActiveRequestsManager`) whose implementations live
in `app/utils` and are therefore reconstructed from the design document.

The network probe `test_api_key` is abstracted as a boolean-valued function
`valid : String → Bool`; all side effects (pool appends, key-stack resets,
inter-probe sleeps, settings saves) are recorded in an explicit event trace.
-/

namespace Gateway

/-- Observable effects of the startup / background-check procedures:
a validation probe of a key, an addition of a key to the live pool
(`key_manager.api_keys.append` / `extend`), the inter-probe delay
(`await asyncio.sleep(0.05)`), a rotation-cursor rebuild
(`key_manager._reset_key_stack()`), and a call to `save_settings()`. -/
inductive Ev where
  | probe (key : String)
  | append (key : String)
  | sleep
  | resetStack
  | saveSettings
deriving DecidableEq

/-- The synchronous first-valid-key search of `startup_event`
(`app/main.py` lines 104-115): probe the configured keys in order; stop at
the first valid one.  Returns `(first_valid_key, initial_invalid_keys,
keys_to_check_later, trace)`. -/
def findFirstValidKey (valid : String → Bool) :
    List String → Option String × List String × List String × List Ev
  | [] => (none, [], [], [])
  | k :: rest =>
    if valid k then (some k, [], rest, [Ev.probe k])
    else
      let r := findFirstValidKey valid rest
      (r.1, k :: r.2.1, r.2.2.1, Ev.probe k :: r.2.2.2)

/-- State reached by the loop of `check_remaining_keys_async`
(`app/main.py` lines 65-74). -/
structure CheckLoopState where
  api_keys : List String
  local_invalid_keys : List String
  found_valid_keys : Bool
  trace : List Ev
deriving DecidableEq

/-- The loop of `check_remaining_keys_async` (`app/main.py` lines 65-74):
probe each remaining key in order; a valid key not already in the pool is
appended to `key_manager.api_keys`, an invalid key is collected into
`local_invalid_keys`; after every probe the task sleeps. -/
def checkKeysLoop (valid : String → Bool) :
    List String → List String → List String → Bool → CheckLoopState
  | [], pool, linv, found => ⟨pool, linv, found, []⟩
  | k :: rest, pool, linv, found =>
    if valid k then
      if k ∈ pool then
        let r := checkKeysLoop valid rest pool linv found
        { r with trace := Ev.probe k :: Ev.sleep :: r.trace }
      else
        let r := checkKeysLoop valid rest (pool ++ [k]) linv true
        { r with trace := Ev.probe k :: Ev.append k :: Ev.sleep :: r.trace }
    else
      let r := checkKeysLoop valid rest pool (linv ++ [k]) found
      { r with trace := Ev.probe k :: Ev.sleep :: r.trace }

/-- The invalid-key persistence step shared by `check_remaining_keys_async`
(lines 77-83) and `startup_event` (lines 130-136): take the union of the
currently persisted invalid-key set with the newly collected invalid keys
and, when the set actually grew, store it and call `save_settings()`.
`settings.INVALID_API_KEYS` is stored by the program as a sorted
comma-joined string; it is modelled here by a duplicate-free list with the
same membership. -/
def mergeInvalidKeys (current newKeys : List String) : List String × Bool :=
  let added := (newKeys.filter (fun k => decide (k ∉ current))).dedup
  if added.isEmpty then (current, false) else (current ++ added, true)

/-- Result of running `check_remaining_keys_async` to completion. -/
structure BackgroundResult where
  api_keys : List String
  local_invalid_keys : List String
  invalid_api_keys : List String
  saved : Bool
  trace : List Ev
deriving DecidableEq

/-- `check_remaining_keys_async` (`app/main.py` lines 61-84) run to
completion: probe every remaining key (appending valid ones to the pool,
collecting invalid ones), rebuild the key stack once at the end when at
least one key was appended, then merge the collected invalid keys into the
persisted invalid set. -/
def check_remaining_keys_async (valid : String → Bool)
    (keys_to_check initial_invalid_keys pool settingsInvalid : List String) :
    BackgroundResult :=
  let s := checkKeysLoop valid keys_to_check pool [] false
  let tr := if s.found_valid_keys then s.trace ++ [Ev.resetStack] else s.trace
  let m := mergeInvalidKeys settingsInvalid (initial_invalid_keys ++ s.local_invalid_keys)
  ⟨s.api_keys, s.local_invalid_keys, m.1, m.2,
    if m.2 then tr ++ [Ev.saveSettings] else tr⟩

/-- Result of the credential-bootstrap part of `startup_event`
(`app/main.py` lines 99-140).  `background_args` records the arguments of
the `check_remaining_keys_async` task when one is created (line 128). -/
structure StartupResult where
  api_keys : List String
  first_valid_key : Option String
  initial_invalid_keys : List String
  keys_to_check_later : List String
  invalid_api_keys : List String
  saved : Bool
  background_args : Option (List String × List String)
  trace : List Ev
deriving DecidableEq

/-- The credential bootstrap of `startup_event` (`app/main.py` lines
99-140), parameterised by the `SKIP_CHECK_API_KEY` flag (line 58): probe
keys in configured order until the first valid one, install it and rebuild
the key stack; then either hand the remaining keys to the background task
(`skip = false`, line 128), merge the initial invalid keys directly when no
keys remain to check (lines 129-136), or — when `SKIP_CHECK_API_KEY` is
set — extend the pool with the remaining unprobed keys (lines 137-140). -/
def startup_event (skip : Bool) (valid : String → Bool)
    (initial_keys settingsInvalid : List String) : StartupResult :=
  let r := findFirstValidKey valid initial_keys
  match r.1 with
  | none =>
    if skip then
      ⟨[], none, r.2.1, [], settingsInvalid, false, none, r.2.2.2 ++ [Ev.resetStack]⟩
    else
      let m := mergeInvalidKeys settingsInvalid r.2.1
      ⟨[], none, r.2.1, [], m.1, m.2, none,
        if m.2 then r.2.2.2 ++ [Ev.saveSettings] else r.2.2.2⟩
  | some k =>
    let later := r.2.2.1
    let tr := r.2.2.2 ++ [Ev.append k, Ev.resetStack]
    if skip then
      ⟨[k] ++ later, some k, r.2.1, later, settingsInvalid, false, none,
        tr ++ later.map Ev.append ++ [Ev.resetStack]⟩
    else
      if later.isEmpty then
        let m := mergeInvalidKeys settingsInvalid r.2.1
        ⟨[k], some k, r.2.1, later, m.1, m.2, none,
          if m.2 then tr ++ [Ev.saveSettings] else tr⟩
      else
        ⟨[k], some k, r.2.1, later, settingsInvalid, false, some (later, r.2.1), tr⟩

/-- Final program state once startup and the background-check task (when
one was scheduled) have both completed. -/
structure FinalState where
  api_keys : List String
  invalid_api_keys : List String
  saved : Bool
  trace : List Ev
deriving DecidableEq

/-- Startup followed by the completion of the scheduled
`check_remaining_keys_async` task, when there is one. -/
def startup_then_background (skip : Bool) (valid : String → Bool)
    (initial_keys settingsInvalid : List String) : FinalState :=
  let s := startup_event skip valid initial_keys settingsInvalid
  match s.background_args with
  | some args =>
    let b := check_remaining_keys_async valid args.1 args.2 s.api_keys s.invalid_api_keys
    ⟨b.api_keys, b.invalid_api_keys, s.saved || b.saved, s.trace ++ b.trace⟩
  | none => ⟨s.api_keys, s.invalid_api_keys, s.saved, s.trace⟩

/-- The result an upstream call resolves to: a success or a failure. -/
inductive UpResult where
  | ok (value : String)
  | err (error : String)
deriving DecidableEq

/-- Modelled from the spec: the Active-Request Coalescer
(`ActiveRequestsManager`, constructed in `app/main.py` lines 56-57; its
implementation lives in `app.utils`, outside `src/`).  `requests_pool` maps
each in-flight request fingerprint to the shared completion handle (an
identifier of the future) that all coalesced callers await; `next_handle`
supplies fresh handles. -/
structure ActiveRequestsManager where
  requests_pool : List (String × Nat)
  next_handle : Nat
deriving DecidableEq

/-- Outcome of joining the coalescer: the single Owner performs the
upstream call; Followers await the Owner's handle. -/
inductive JoinOutcome where
  | owner (handle : Nat)
  | follower (handle : Nat)
deriving DecidableEq

/-- The completion handle a join outcome is bound to. -/
def JoinOutcome.handleOf : JoinOutcome → Nat
  | .owner h => h
  | .follower h => h

/-- Whether the join outcome is the Owner (the caller that performs the
single upstream invocation). -/
def JoinOutcome.isOwner : JoinOutcome → Bool
  | .owner _ => true
  | .follower _ => false

/-- Modelled from the spec: `join_or_become_owner(fingerprint)` atomically
checks for an existing in-flight entry; if absent, creates one and returns
`Owner`; if present, returns `Follower` bound to the existing handle. -/
def join_or_become_owner (c : ActiveRequestsManager) (f : String) :
    JoinOutcome × ActiveRequestsManager :=
  match c.requests_pool.lookup f with
  | some h => (.follower h, c)
  | none =>
    (.owner c.next_handle, ⟨(f, c.next_handle) :: c.requests_pool, c.next_handle + 1⟩)

/-- `n` coalescer joins with the same fingerprint, with no intervening
resolution: the interleaving model of `n` overlapping concurrent
requests. -/
def joinMany (c : ActiveRequestsManager) (f : String) :
    Nat → List JoinOutcome × ActiveRequestsManager
  | 0 => ([], c)
  | n + 1 =>
    let r := join_or_become_owner c f
    let rs := joinMany r.2 f n
    (r.1 :: rs.1, rs.2)

/-- Modelled from the spec: `resolve(fingerprint, result)` — Owner-only —
publishes the result on the shared handle and removes the in-flight entry
(the `abandon` failure path is the same removal with an `err` result). -/
def resolveRequest (c : ActiveRequestsManager) (f : String) (_result : UpResult) :
    ActiveRequestsManager :=
  ⟨c.requests_pool.filter (fun p => !(p.1 == f)), c.next_handle⟩

/-- The result a coalesced caller observes: every caller awaits the handle
its join outcome is bound to, so it sees whatever was published there. -/
def observedResult (published : Nat → UpResult) (o : JoinOutcome) : UpResult :=
  published o.handleOf

/-- Number of upstream invocations performed by a set of coalesced callers:
per the design only the Owner calls upstream. -/
def upstreamCalls (os : List JoinOutcome) : Nat :=
  (os.filter JoinOutcome.isOwner).length

/-- A cache entry: fingerprint, serialized response, and (write-time-based)
expiry timestamp. -/
structure CacheEntry where
  fingerprint : String
  response : String
  expiry : Nat
deriving DecidableEq

/-- Modelled from the spec: the Response Cache (`ResponseCacheManager`,
constructed in `app/main.py` lines 51-55; its implementation lives in
`app.utils`, outside `src/`).  `cache` is kept in insertion order, oldest
entry first; `max_entries` is the configured capacity bound. -/
structure ResponseCacheManager where
  cache : List CacheEntry
  max_entries : Nat
deriving DecidableEq

/-- Modelled from the spec: `get(fingerprint)` returns the cached response
if present and unexpired at the query time, otherwise a miss (`none`).  It
is a pure read: it does not modify the cache and in particular never
extends an entry's expiry. -/
def cacheGet (c : ResponseCacheManager) (f : String) (now : Nat) : Option String :=
  match c.cache.find? (fun e => e.fingerprint == f) with
  | some e => if now < e.expiry then some e.response else none
  | none => none

/-- Modelled from the spec: `put(fingerprint, response, ttl)` inserts or
overwrites.  Overwriting keeps the entry's position in the insertion
order; inserting at capacity first evicts the oldest-inserted entry. -/
def cachePut (c : ResponseCacheManager) (f resp : String) (now ttl : Nat) :
    ResponseCacheManager :=
  if c.cache.any (fun e => e.fingerprint == f) then
    { c with cache := c.cache.map (fun e =>
        if e.fingerprint == f then ⟨f, resp, now + ttl⟩ else e) }
  else
    let base := if c.max_entries ≤ c.cache.length then c.cache.drop 1 else c.cache
    { c with cache := base ++ [⟨f, resp, now + ttl⟩] }

/-- Modelled from the spec: the Credential Manager's rotation state
(`APIKeyManager`, constructed in `app/main.py` line 49; its implementation
lives in `app.utils`, outside `src/`).  `api_keys` is the live pool,
`key_stack` the rotation cursor: the portion of the current cycle not yet
handed out. -/
structure APIKeyManager where
  api_keys : List String
  key_stack : List String
deriving DecidableEq

/-- Modelled from the spec: `_reset_key_stack` rebuilds the rotation cursor
from the live pool so that the new cycle yields each live credential
exactly once. -/
def _reset_key_stack (m : APIKeyManager) : APIKeyManager :=
  { m with key_stack := m.api_keys }

/-- Modelled from the spec: `acquire()` returns the next credential of the
rotation cursor; an exhausted cursor is rebuilt from the live pool and the
new cycle begins; an empty live pool yields `none`
(`NoCredentialAvailable`). -/
def acquire (m : APIKeyManager) : Option String × APIKeyManager :=
  match m.key_stack with
  | k :: rest => (some k, { m with key_stack := rest })
  | [] =>
    match m.api_keys with
    | [] => (none, m)
    | k :: rest => (some k, { m with key_stack := rest })

/-- `n` consecutive `acquire()` calls, in order. -/
def acquireN (m : APIKeyManager) : Nat → List (Option String) × APIKeyManager
  | 0 => ([], m)
  | n + 1 =>
    let r := acquire m
    let rs := acquireN r.2 n
    (r.1 :: rs.1, rs.2)

/-- The error body built by the global exception handler
(`app/main.py` line 155): `ErrorResponse(message=str(exc), type="internal_error")`. -/
structure ErrorResponse where
  message : String
  type : String
deriving DecidableEq

/-- The JSON dictionary of an `ErrorResponse` (its `.dict()`). -/
def ErrorResponse.dict (e : ErrorResponse) : List (String × String) :=
  [("message", e.message), ("type", e.type)]

/-- `global_exception_handler` (`app/main.py` lines 149-155): any uncaught
exception in the request path is translated into a `JSONResponse` with
HTTP status 500 whose body is `ErrorResponse(message=str(exc),
type="internal_error")`.  Totality of this function models the fact that
the handler itself cannot fail: every uncaught fault yields a well-formed
response rather than a crash or a bare connection drop. -/
def global_exception_handler (excMessage : String) : Nat × ErrorResponse :=
  (500, { message := excMessage, type := ("internal_error") })

/-- Line 122 of `app/main.py`: the dynamic model list is the result of the
last successful `list_available_models` call with every occurrence of
`models/` removed from each name. -/
def AVAILABLE_MODELS_from (all_models : List String) : List String :=
  all_models.map (fun m => m.replace ("models/") (""))

/-- One entry of the model-listing response body: `{"id": model,
"object": "model", "owned_by": "google"}`. -/
structure ModelObj where
  id : String
  object : String
  owned_by : String
deriving DecidableEq

/-- The fixed fallback list of `list_models` (`app/main.py` line 168). -/
def default_models : List String := ["gemini-2.5-pro", "gemini-pro"]

/-- `list_models` (`app/main.py` lines 160-179): when the dynamic model
list is empty the fixed default list is served, otherwise the dynamic
list; the result is the pair of the response's `object` tag and its
`data` array. -/
def list_models (available : List String) : String × List ModelObj :=
  if available.isEmpty then
    (("list"), default_models.map (fun m => ⟨m, ("model"), ("google")⟩))
  else
    (("list"), available.map (fun m => ⟨m, ("model"), ("google")⟩))

/-- Whether a trace contains a pool addition. -/
def traceHasAppend : List Ev → Bool
  | [] => false
  | Ev.append _ :: _ => true
  | _ :: rest => traceHasAppend rest

/-- Whether a trace contains a rotation-cursor rebuild. -/
def traceHasReset : List Ev → Bool
  | [] => false
  | Ev.resetStack :: _ => true
  | _ :: rest => traceHasReset rest

/-- No pool addition happens after a rotation-cursor rebuild. -/
def noAppendAfterReset : List Ev → Bool
  | [] => true
  | Ev.resetStack :: rest => !traceHasAppend rest
  | _ :: rest => noAppendAfterReset rest

/-- Every pool addition is eventually followed by a rotation-cursor
rebuild. -/
def everyAppendEventuallyReset : List Ev → Bool
  | [] => true
  | Ev.append _ :: rest => traceHasReset rest && everyAppendEventuallyReset rest
  | _ :: rest => everyAppendEventuallyReset rest

/-- The cursor is rebuilt after each pool addition before the next pool
addition takes place.  The boolean argument records whether an addition is
still awaiting its rebuild. -/
def appendsCursorFresh : List Ev → Bool → Bool
  | [], _ => true
  | Ev.append _ :: _, true => false
  | Ev.append _ :: rest, false => appendsCursorFresh rest true
  | Ev.resetStack :: rest, _ => appendsCursorFresh rest false
  | _ :: rest, b => appendsCursorFresh rest b

/-- Keys probed in a trace, most recent first. -/
def probesRev : List Ev → List String
  | [] => []
  | Ev.probe k :: rest => probesRev rest ++ [k]
  | _ :: rest => probesRev rest

/-- Every key added to the pool was probed earlier in the trace (the
accumulator holds the keys already probed). -/
def appendsProbed : List Ev → List String → Bool
  | [], _ => true
  | Ev.probe k :: rest, seen => appendsProbed rest (k :: seen)
  | Ev.append k :: rest, seen => decide (k ∈ seen) && appendsProbed rest seen
  | _ :: rest, seen => appendsProbed rest seen

/-- The event trace emitted by `checkKeysLoop` when no probed key is
already in the pool and the keys are distinct: one probe — followed by an
addition exactly when the key is valid — and one inter-probe sleep per
key, strictly in list order. -/
def segTrace (valid : String → Bool) : List String → List Ev
  | [] => []
  | k :: rest =>
    if valid k then Ev.probe k :: Ev.append k :: Ev.sleep :: segTrace valid rest
    else Ev.probe k :: Ev.sleep :: segTrace valid rest

/-- Number of rotation-cursor rebuilds in a trace. -/
def resetCount : List Ev → Nat
  | [] => 0
  | Ev.resetStack :: rest => resetCount rest + 1
  | _ :: rest => resetCount rest

/-- Probe oracle accepting exactly the key `k1`. -/
def vK1 : String → Bool := fun s => s == ("k1")

/-- Probe oracle accepting exactly the key `k2`. -/
def vK2 : String → Bool := fun s => s == ("k2")

/-- Probe oracle accepting every key. -/
def vAll : String → Bool := fun _ => true

/-- Probe oracle accepting exactly the keys `b` and `c`. -/
def vBC : String → Bool := fun s => s == ("b") || s == ("c")

/-! ### Trace-predicate lemmas -/

theorem traceHasAppend_append (t₁ t₂ : List Ev) :
    traceHasAppend (t₁ ++ t₂) = (traceHasAppend t₁ || traceHasAppend t₂) := by
  induction t₁ with
  | nil => simp [traceHasAppend]
  | cons e t ih => cases e <;> simp [traceHasAppend, ih]

theorem traceHasReset_append (t₁ t₂ : List Ev) :
    traceHasReset (t₁ ++ t₂) = (traceHasReset t₁ || traceHasReset t₂) := by
  induction t₁ with
  | nil => simp [traceHasReset]
  | cons e t ih => cases e <;> simp [traceHasReset, ih]

theorem traceHasAppend_map_probe (l : List String) :
    traceHasAppend (l.map Ev.probe) = false := by
  induction l with
  | nil => rfl
  | cons a l ih => simp [traceHasAppend, ih]

theorem traceHasReset_map_probe (l : List String) :
    traceHasReset (l.map Ev.probe) = false := by
  induction l with
  | nil => rfl
  | cons a l ih => simp [traceHasReset, ih]

theorem resetCount_append (t₁ t₂ : List Ev) :
    resetCount (t₁ ++ t₂) = resetCount t₁ + resetCount t₂ := by
  induction t₁ with
  | nil => simp [resetCount]
  | cons e t ih => cases e <;> simp [resetCount, ih] <;> omega

theorem resetCount_of_no_reset (t : List Ev) (h : traceHasReset t = false) :
    resetCount t = 0 := by
  induction t with
  | nil => rfl
  | cons e t ih =>
    cases e <;> simp [traceHasReset] at h <;> simp [resetCount, ih h]

theorem noAppendAfterReset_append_of_no_reset (t₁ t₂ : List Ev)
    (h : traceHasReset t₁ = false) :
    noAppendAfterReset (t₁ ++ t₂) = noAppendAfterReset t₂ := by
  induction t₁ with
  | nil => simp
  | cons e t ih =>
    cases e <;> simp [traceHasReset] at h <;> simp [noAppendAfterReset, ih h]

theorem noAppendAfterReset_of_no_reset (t : List Ev) (h : traceHasReset t = false) :
    noAppendAfterReset t = true := by
  induction t with
  | nil => rfl
  | cons e t ih =>
    cases e <;> simp [traceHasReset] at h <;> simp [noAppendAfterReset, ih h]

theorem everyAppendEventuallyReset_of_no_append (t : List Ev)
    (h : traceHasAppend t = false) :
    everyAppendEventuallyReset t = true := by
  induction t with
  | nil => rfl
  | cons e t ih =>
    cases e <;> simp [traceHasAppend] at h <;>
      simp [everyAppendEventuallyReset, ih h]

theorem everyAppendEventuallyReset_append_reset (t₁ t₂ : List Ev) :
    everyAppendEventuallyReset (t₁ ++ Ev.resetStack :: t₂)
      = everyAppendEventuallyReset t₂ := by
  induction t₁ with
  | nil => simp [everyAppendEventuallyReset]
  | cons e t ih =>
    cases e <;>
      simp [everyAppendEventuallyReset, ih, traceHasReset_append, traceHasReset]

theorem appendsProbed_append (t₁ t₂ : List Ev) :
    ∀ seen, appendsProbed (t₁ ++ t₂) seen
      = (appendsProbed t₁ seen && appendsProbed t₂ (probesRev t₁ ++ seen)) := by
  induction t₁ with
  | nil => intro seen; simp [appendsProbed, probesRev]
  | cons e t ih =>
    intro seen
    cases e with
    | probe k => simp [appendsProbed, probesRev, ih]
    | append k => simp [appendsProbed, probesRev, ih, Bool.and_assoc]
    | sleep => simp [appendsProbed, probesRev, ih]
    | resetStack => simp [appendsProbed, probesRev, ih]
    | saveSettings => simp [appendsProbed, probesRev, ih]

theorem appendsProbed_of_no_append (t : List Ev) (h : traceHasAppend t = false) :
    ∀ seen, appendsProbed t seen = true := by
  induction t with
  | nil => intro seen; rfl
  | cons e t ih =>
    intro seen
    cases e <;> simp [traceHasAppend] at h <;> simp [appendsProbed, ih h]

theorem probesRev_map_probe (l : List String) :
    probesRev (l.map Ev.probe) = l.reverse := by
  induction l with
  | nil => rfl
  | cons a l ih => simp [probesRev, ih]

/-! ### Lemmas about the synchronous first-valid-key search -/

theorem findFirstValidKey_decomp (valid : String → Bool) (pre post : List String)
    (k : String) (hpre : ∀ x ∈ pre, valid x = false) (hk : valid k = true) :
    findFirstValidKey valid (pre ++ k :: post) =
      (some k, pre, post, (pre ++ [k]).map Ev.probe) := by
  induction pre with
  | nil => simp [findFirstValidKey, hk]
  | cons a pre ih =>
    have ha : valid a = false := hpre a (by simp)
    have ih' := ih (fun x hx => hpre x (by simp [hx]))
    simp [findFirstValidKey, ha, ih']

theorem findFirstValidKey_none (valid : String → Bool) (keys : List String)
    (h : (findFirstValidKey valid keys).1 = none) :
    findFirstValidKey valid keys = (none, keys, [], keys.map Ev.probe) ∧
      ∀ x ∈ keys, valid x = false := by
  induction keys with
  | nil => simp [findFirstValidKey]
  | cons a rest ih =>
    cases ha : valid a with
    | true => rw [findFirstValidKey, ha] at h; simp at h
    | false =>
      rw [findFirstValidKey, ha] at h
      simp only [Bool.false_eq_true, if_false] at h
      obtain ⟨h1, h2⟩ := ih h
      rw [findFirstValidKey, ha]
      simp only [Bool.false_eq_true, if_false, h1]
      refine ⟨rfl, ?_⟩
      intro x hx
      rcases List.mem_cons.mp hx with hxa | hxr
      · simpa [hxa] using ha
      · exact h2 x hxr

theorem findFirstValidKey_some (valid : String → Bool) (keys : List String)
    (k : String) (h : (findFirstValidKey valid keys).1 = some k) :
    ∃ pre post, keys = pre ++ k :: post ∧ (∀ x ∈ pre, valid x = false) ∧
      valid k = true := by
  induction keys with
  | nil => simp [findFirstValidKey] at h
  | cons a rest ih =>
    cases ha : valid a with
    | true =>
      rw [findFirstValidKey, ha] at h
      simp only [if_true] at h
      obtain rfl : a = k := by simpa using h
      exact ⟨[], rest, rfl, by simp, ha⟩
    | false =>
      rw [findFirstValidKey, ha] at h
      simp only [Bool.false_eq_true, if_false] at h
      obtain ⟨pre, post, hkeys, hpre, hk⟩ := ih h
      refine ⟨a :: pre, post, by simp [hkeys], ?_, hk⟩
      intro x hx
      rcases List.mem_cons.mp hx with hxa | hxr
      · simpa [hxa] using ha
      · exact hpre x hxr

/-! ### Lemmas about invalid-key persistence -/

theorem mem_mergeInvalidKeys (current newKeys : List String) (x : String) :
    x ∈ (mergeInvalidKeys current newKeys).1 ↔ x ∈ current ∨ x ∈ newKeys := by
  simp only [mergeInvalidKeys]
  by_cases h : ((newKeys.filter (fun k => decide (k ∉ current))).dedup).isEmpty = true
  · rw [if_pos h]
    have hsub : ∀ y ∈ newKeys, y ∈ current := by
      intro y hy
      by_contra hyc
      have hmem : y ∈ (newKeys.filter (fun k => decide (k ∉ current))).dedup := by
        simp [List.mem_dedup, List.mem_filter, hy, hyc]
      rw [List.isEmpty_iff] at h
      rw [h] at hmem
      exact absurd hmem (List.not_mem_nil y)
    constructor
    · exact Or.inl
    · rintro (hc | hn)
      · exact hc
      · exact hsub x hn
  · rw [if_neg h]
    simp only [List.mem_append, List.mem_dedup, List.mem_filter,
      decide_eq_true_eq]
    tauto

theorem mergeInvalidKeys_saved (current newKeys : List String) (x : String)
    (hx : x ∈ newKeys) (hnc : x ∉ current) :
    (mergeInvalidKeys current newKeys).2 = true := by
  simp only [mergeInvalidKeys]
  by_cases h : ((newKeys.filter (fun k => decide (k ∉ current))).dedup).isEmpty = true
  · exfalso
    have hmem : x ∈ (newKeys.filter (fun k => decide (k ∉ current))).dedup := by
      simp [List.mem_dedup, List.mem_filter, hx, hnc]
    rw [List.isEmpty_iff] at h
    rw [h] at hmem
    exact absurd hmem (List.not_mem_nil x)
  · rw [if_neg h]

/-! ### Lemmas about the background-check loop -/

theorem checkKeysLoop_spec (valid : String → Bool) (ks : List String) :
    ∀ pool linv found, (∀ x ∈ ks, x ∉ pool) → ks.Nodup →
      checkKeysLoop valid ks pool linv found =
        ⟨pool ++ ks.filter valid, linv ++ ks.filter (fun x => !valid x),
         found || ks.any valid, segTrace valid ks⟩ := by
  induction ks with
  | nil => intro pool linv found _ _; simp [checkKeysLoop, segTrace]
  | cons k rest ih =>
    intro pool linv found hdisj hnd
    have hkp : k ∉ pool := hdisj k (by simp)
    rw [List.nodup_cons] at hnd
    cases hvk : valid k with
    | true =>
      have hdisj' : ∀ x ∈ rest, x ∉ pool ++ [k] := by
        intro x hx
        simp only [List.mem_append, List.mem_singleton]
        rintro (hp | rfl)
        · exact hdisj x (by simp [hx]) hp
        · exact hnd.1 hx
      have ih' := ih (pool ++ [k]) linv true hdisj' hnd.2
      simp [checkKeysLoop, hvk, hkp, ih', segTrace, List.filter_cons,
        List.any_cons, List.append_assoc]
    | false =>
      have ih' := ih pool (linv ++ [k]) found
        (fun x hx => hdisj x (by simp [hx])) hnd.2
      simp [checkKeysLoop, hvk, ih', segTrace, List.filter_cons,
        List.any_cons, List.append_assoc]

theorem checkKeysLoop_pool_mem (valid : String → Bool) (ks : List String) :
    ∀ pool linv found x, x ∈ (checkKeysLoop valid ks pool linv found).api_keys →
      x ∈ pool ∨ valid x = true := by
  induction ks with
  | nil => intro pool linv found x hx; left; simpa [checkKeysLoop] using hx
  | cons k rest ih =>
    intro pool linv found x hx
    cases hvk : valid k with
    | true =>
      by_cases hkp : k ∈ pool
      · rw [checkKeysLoop] at hx
        simp only [hvk, if_true, hkp] at hx
        exact ih pool linv found x hx
      · rw [checkKeysLoop] at hx
        simp only [hvk, if_true, hkp, if_false] at hx
        rcases ih (pool ++ [k]) linv true x hx with hp | hv
        · rcases List.mem_append.mp hp with hp' | hk'
          · exact Or.inl hp'
          · right; rw [List.mem_singleton] at hk'; rw [hk']; exact hvk
        · exact Or.inr hv
    | false =>
      rw [checkKeysLoop] at hx
      simp only [hvk, Bool.false_eq_true, if_false] at hx
      exact ih pool (linv ++ [k]) found x hx

theorem checkKeysLoop_linv_mem (valid : String → Bool) (ks : List String) :
    ∀ pool linv found x,
      x ∈ (checkKeysLoop valid ks pool linv found).local_invalid_keys →
      x ∈ linv ∨ valid x = false := by
  induction ks with
  | nil => intro pool linv found x hx; left; simpa [checkKeysLoop] using hx
  | cons k rest ih =>
    intro pool linv found x hx
    cases hvk : valid k with
    | true =>
      by_cases hkp : k ∈ pool
      · rw [checkKeysLoop] at hx
        simp only [hvk, if_true, hkp] at hx
        exact ih pool linv found x hx
      · rw [checkKeysLoop] at hx
        simp only [hvk, if_true, hkp, if_false] at hx
        exact ih (pool ++ [k]) linv true x hx
    | false =>
      rw [checkKeysLoop] at hx
      simp only [hvk, Bool.false_eq_true, if_false] at hx
      rcases ih pool (linv ++ [k]) found x hx with hl | hv
      · rcases List.mem_append.mp hl with hl' | hk'
        · exact Or.inl hl'
        · right; rw [List.mem_singleton] at hk'; rw [hk']; exact hvk
      · exact Or.inr hv

theorem checkKeysLoop_linv_sub (valid : String → Bool) (ks : List String) :
    ∀ pool linv found x, x ∈ linv →
      x ∈ (checkKeysLoop valid ks pool linv found).local_invalid_keys := by
  induction ks with
  | nil => intro pool linv found x hx; simpa [checkKeysLoop] using hx
  | cons k rest ih =>
    intro pool linv found x hx
    cases hvk : valid k with
    | true =>
      by_cases hkp : k ∈ pool
      · rw [checkKeysLoop]
        simp only [hvk, if_true, hkp]
        exact ih pool linv found x hx
      · rw [checkKeysLoop]
        simp only [hvk, if_true, hkp, if_false]
        exact ih (pool ++ [k]) linv true x hx
    | false =>
      rw [checkKeysLoop]
      simp only [hvk, Bool.false_eq_true, if_false]
      exact ih pool (linv ++ [k]) found x (by simp [hx])

theorem checkKeysLoop_linv_complete (valid : String → Bool) (ks : List String) :
    ∀ pool linv found x, x ∈ ks → valid x = false →
      x ∈ (checkKeysLoop valid ks pool linv found).local_invalid_keys := by
  induction ks with
  | nil => intro pool linv found x hx; exact absurd hx (List.not_mem_nil x)
  | cons k rest ih =>
    intro pool linv found x hx hvx
    rcases List.mem_cons.mp hx with rfl | hxr
    · rw [checkKeysLoop]
      simp only [hvx, Bool.false_eq_true, if_false]
      exact checkKeysLoop_linv_sub valid rest pool (linv ++ [x]) found x (by simp)
    · cases hvk : valid k with
      | true =>
        by_cases hkp : k ∈ pool
        · rw [checkKeysLoop]
          simp only [hvk, if_true, hkp]
          exact ih pool linv found x hxr hvx
        · rw [checkKeysLoop]
          simp only [hvk, if_true, hkp, if_false]
          exact ih (pool ++ [k]) linv true x hxr hvx
      | false =>
        rw [checkKeysLoop]
        simp only [hvk, Bool.false_eq_true, if_false]
        exact ih pool (linv ++ [k]) found x hxr hvx

theorem checkKeysLoop_probe_iff (valid : String → Bool) (ks : List String) :
    ∀ pool linv found x,
      Ev.probe x ∈ (checkKeysLoop valid ks pool linv found).trace ↔ x ∈ ks := by
  induction ks with
  | nil => intro pool linv found x; simp [checkKeysLoop]
  | cons k rest ih =>
    intro pool linv found x
    cases hvk : valid k with
    | true =>
      by_cases hkp : k ∈ pool
      · rw [checkKeysLoop]
        simp only [hvk, if_true, hkp]
        simp [ih, List.mem_cons]
      · rw [checkKeysLoop]
        simp only [hvk, if_true, hkp, if_false]
        simp [ih, List.mem_cons]
    | false =>
      rw [checkKeysLoop]
      simp only [hvk, Bool.false_eq_true, if_false]
      simp [ih, List.mem_cons]

theorem checkKeysLoop_no_reset (valid : String → Bool) (ks : List String) :
    ∀ pool linv found,
      traceHasReset (checkKeysLoop valid ks pool linv found).trace = false := by
  induction ks with
  | nil => intro pool linv found; simp [checkKeysLoop, traceHasReset]
  | cons k rest ih =>
    intro pool linv found
    cases hvk : valid k with
    | true =>
      by_cases hkp : k ∈ pool
      · rw [checkKeysLoop]
        simp only [hvk, if_true, hkp]
        simp [traceHasReset, ih]
      · rw [checkKeysLoop]
        simp only [hvk, if_true, hkp, if_false]
        simp [traceHasReset, ih]
    | false =>
      rw [checkKeysLoop]
      simp only [hvk, Bool.false_eq_true, if_false]
      simp [traceHasReset, ih]

theorem checkKeysLoop_found (valid : String → Bool) (ks : List String) :
    ∀ pool linv found,
      (checkKeysLoop valid ks pool linv found).found_valid_keys
        = (found || traceHasAppend (checkKeysLoop valid ks pool linv found).trace) := by
  induction ks with
  | nil => intro pool linv found; simp [checkKeysLoop, traceHasAppend]
  | cons k rest ih =>
    intro pool linv found
    cases hvk : valid k with
    | true =>
      by_cases hkp : k ∈ pool
      · rw [checkKeysLoop]
        simp only [hvk, if_true, hkp]
        simp [traceHasAppend, ih]
      · rw [checkKeysLoop]
        simp only [hvk, if_true, hkp, if_false]
        simp [traceHasAppend, ih pool linv true]
        rw [ih (pool ++ [k]) linv true]
        simp
    | false =>
      rw [checkKeysLoop]
      simp only [hvk, Bool.false_eq_true, if_false]
      simp [traceHasAppend, ih]

theorem checkKeysLoop_appendsProbed (valid : String → Bool) (ks : List String) :
    ∀ pool linv found seen,
      appendsProbed (checkKeysLoop valid ks pool linv found).trace seen = true := by
  induction ks with
  | nil => intro pool linv found seen; simp [checkKeysLoop, appendsProbed]
  | cons k rest ih =>
    intro pool linv found seen
    cases hvk : valid k with
    | true =>
      by_cases hkp : k ∈ pool
      · rw [checkKeysLoop]
        simp only [hvk, if_true, hkp]
        simp [appendsProbed, ih]
      · rw [checkKeysLoop]
        simp only [hvk, if_true, hkp, if_false]
        simp [appendsProbed, List.contains_cons, ih]
    | false =>
      rw [checkKeysLoop]
      simp only [hvk, Bool.false_eq_true, if_false]
      simp [appendsProbed, ih]

/-! ### Coalescer lemmas -/

theorem lookup_cons_self (f : String) (h : Nat) (l : List (String × Nat)) :
    ((f, h) :: l).lookup f = some h := by
  simp [List.lookup]

theorem joinMany_follower (f : String) (hd : Nat) :
    ∀ n (c : ActiveRequestsManager), c.requests_pool.lookup f = some hd →
      joinMany c f n = (List.replicate n (JoinOutcome.follower hd), c) := by
  intro n
  induction n with
  | zero => intro c hc; rfl
  | succ n ih =>
    intro c hc
    rw [joinMany]
    simp [join_or_become_owner, hc, ih c hc, List.replicate_succ]

theorem upstreamCalls_replicate_follower (n h : Nat) :
    upstreamCalls (List.replicate n (JoinOutcome.follower h)) = 0 := by
  induction n with
  | zero => rfl
  | succ n ih =>
    simpa [upstreamCalls, List.replicate_succ, List.filter_cons,
      JoinOutcome.isOwner] using ih

theorem lookup_filter_out (f : String) (l : List (String × Nat)) :
    (l.filter (fun p => !(p.1 == f))).lookup f = none := by
  induction l with
  | nil => rfl
  | cons p l ih =>
    obtain ⟨a, b⟩ := p
    by_cases hp : a = f
    · simp [List.filter_cons, hp, ih]
    · have h1 : (a == f) = false := by simp [hp]
      have h2 : (f == a) = false := by simp [Ne.symm hp]
      simp [List.filter_cons, h1, List.lookup, h2, ih]

/-! ### Claim C5 -/

/-- C5: for every K ≥ 2 concurrent requests carrying an identical
fingerprint, exactly one upstream invocation is performed (exactly one
caller becomes the Owner) and all K callers are bound to the same
completion handle, hence each observes the identical published result,
success or failure; resolving removes the in-flight entry. -/
theorem claim_C5 (c : ActiveRequestsManager) (f : String) (K : Nat)
    (hfree : c.requests_pool.lookup f = none) (hK : 2 ≤ K) :
    upstreamCalls (joinMany c f K).1 = 1 ∧
    (∀ published : Nat → UpResult, ∀ o ∈ (joinMany c f K).1,
      observedResult published o = published c.next_handle) ∧
    (∀ r : UpResult,
      ((resolveRequest (joinMany c f K).2 f r).requests_pool).lookup f = none) := by
  obtain ⟨n, rfl⟩ : ∃ n, K = n + 1 := ⟨K - 1, by omega⟩
  have hstep : join_or_become_owner c f
      = (JoinOutcome.owner c.next_handle,
         ⟨(f, c.next_handle) :: c.requests_pool, c.next_handle + 1⟩) := by
    simp [join_or_become_owner, hfree]
  have hrest : joinMany ⟨(f, c.next_handle) :: c.requests_pool, c.next_handle + 1⟩ f n
      = (List.replicate n (JoinOutcome.follower c.next_handle),
         ⟨(f, c.next_handle) :: c.requests_pool, c.next_handle + 1⟩) :=
    joinMany_follower f c.next_handle n _ (lookup_cons_self f c.next_handle c.requests_pool)
  have hjoin : joinMany c f (n + 1)
      = (JoinOutcome.owner c.next_handle
          :: List.replicate n (JoinOutcome.follower c.next_handle),
         ⟨(f, c.next_handle) :: c.requests_pool, c.next_handle + 1⟩) := by
    rw [joinMany, hstep]
    simp [hrest]
  refine ⟨?_, ?_, ?_⟩
  · rw [hjoin]
    have h0 := upstreamCalls_replicate_follower n c.next_handle
    simp only [upstreamCalls, List.filter_cons, JoinOutcome.isOwner] at h0 ⊢
    simp [h0]
  · intro published o ho
    rw [hjoin] at ho
    rcases List.mem_cons.mp ho with rfl | hrep
    · rfl
    · rw [List.eq_of_mem_replicate hrep]; rfl
  · intro r
    rw [hjoin]
    exact lookup_filter_out f _

/-- C5 witness: two concurrent joins on an empty coalescer result in one
upstream invocation. -/
theorem claim_C5_witness :
    (([] : List (String × Nat)).lookup ("fp") = none) ∧ 2 ≤ 2 ∧
    upstreamCalls (joinMany ⟨[], 0⟩ ("fp") 2).1 = 1 ∧
    ((resolveRequest (joinMany ⟨[], 0⟩ ("fp") 2).2 ("fp")
      (UpResult.err ("boom"))).requests_pool).lookup ("fp") = none := by
  refine ⟨rfl, by omega, ?_, ?_⟩
  · exact (claim_C5 ⟨[], 0⟩ ("fp") 2 rfl (by omega)).1
  · exact (claim_C5 ⟨[], 0⟩ ("fp") 2 rfl (by omega)).2.2 (UpResult.err ("boom"))

/-! ### Claim C9 -/

/-- C9: every uncaught exception in the request path is translated by the
outermost handler into a well-formed JSON error body with type
discriminator `internal_error` and HTTP status 500; the handler is a total
function of the exception message, so no fault escapes as a crash or a
bare connection drop. -/
theorem claim_C9 (excMessage : String) :
    (global_exception_handler excMessage).1 = 500 ∧
    (global_exception_handler excMessage).2.type = ("internal_error") ∧
    (global_exception_handler excMessage).2.message = excMessage ∧
    (global_exception_handler excMessage).2.dict
      = [(("message"), excMessage), (("type"), ("internal_error"))] :=
  ⟨rfl, rfl, rfl, rfl⟩

/-! ### Claim C10 -/

theorem map_mk_id (l : List String) (ob ow : String) :
    l.map (ModelObj.id ∘ fun m => (⟨m, ob, ow⟩ : ModelObj)) = l := by
  have hfun : (ModelObj.id ∘ fun m => (⟨m, ob, ow⟩ : ModelObj)) = fun m => m := by
    funext m; rfl
  rw [hfun, List.map_id']

/-- C10: the model listing endpoint serves the identifiers obtained from
the last successful upstream model-list call (with the `models/` marker
stripped); exactly when that dynamic list is empty it serves the fixed
default list; and every returned entry carries the `id`, `object` and
`owned_by` fields with the fixed `object`/`owned_by` values. -/
theorem claim_C10 (all_models : List String) :
    ((list_models (AVAILABLE_MODELS_from all_models)).2.map ModelObj.id
      = if all_models.isEmpty then default_models
        else AVAILABLE_MODELS_from all_models) ∧
    (∀ e ∈ (list_models (AVAILABLE_MODELS_from all_models)).2,
      e.object = ("model") ∧ e.owned_by = ("google")) ∧
    (list_models (AVAILABLE_MODELS_from all_models)).1 = ("list") := by
  have hemp : (AVAILABLE_MODELS_from all_models).isEmpty = all_models.isEmpty := by
    cases all_models <;> simp [AVAILABLE_MODELS_from]
  refine ⟨?_, ?_, ?_⟩
  · by_cases h : all_models.isEmpty = true
    · rw [if_pos h, list_models, if_pos (by rw [hemp]; exact h)]
      simp only [List.map_map]
      exact map_mk_id default_models ("model") ("google")
    · rw [if_neg h, list_models, if_neg (by rw [hemp]; exact h)]
      simp only [List.map_map]
      exact map_mk_id (AVAILABLE_MODELS_from all_models) ("model") ("google")
  · intro e he
    rw [list_models] at he
    by_cases h : (AVAILABLE_MODELS_from all_models).isEmpty = true
    · rw [if_pos h] at he
      obtain ⟨m, _, rfl⟩ := List.mem_map.mp he
      exact ⟨rfl, rfl⟩
    · rw [if_neg h] at he
      obtain ⟨m, _, rfl⟩ := List.mem_map.mp he
      exact ⟨rfl, rfl⟩
  · rw [list_models]
    split <;> rfl

/-- C10 witness: with an empty dynamic model list the endpoint serves the
fixed default list. -/
theorem claim_C10_witness :
    ((list_models (AVAILABLE_MODELS_from [])).2.map ModelObj.id
      = if ([] : List String).isEmpty then default_models
        else AVAILABLE_MODELS_from []) ∧
    (list_models (AVAILABLE_MODELS_from [])).1 = ("list") :=
  ⟨(claim_C10 []).1, (claim_C10 []).2.2⟩

/-! ### Cache lemmas -/

theorem find?_overwrite (f resp : String) (nt : Nat) (l : List CacheEntry)
    (h : l.any (fun e => e.fingerprint == f) = true) :
    (l.map (fun e =>
      if e.fingerprint == f then (⟨f, resp, nt⟩ : CacheEntry) else e)).find?
        (fun e => e.fingerprint == f) = some ⟨f, resp, nt⟩ := by
  induction l with
  | nil => simp at h
  | cons e l ih =>
    by_cases he : (e.fingerprint == f) = true
    · simp [List.find?, he]
    · have he' : (e.fingerprint == f) = false := by simpa using he
      rw [List.any_cons, he'] at h
      simp only [Bool.false_or] at h
      rw [List.map_cons, if_neg he]
      simp only [List.find?, he']
      exact ih h

theorem find?_append_new (f resp : String) (nt : Nat) (l : List CacheEntry)
    (h : ∀ e ∈ l, (e.fingerprint == f) = false) :
    (l ++ [(⟨f, resp, nt⟩ : CacheEntry)]).find? (fun e => e.fingerprint == f)
      = some ⟨f, resp, nt⟩ := by
  induction l with
  | nil => simp [List.find?]
  | cons e l ih =>
    have he := h e (by simp)
    simp [List.find?, he, ih (fun x hx => h x (by simp [hx]))]

theorem cachePut_find (c : ResponseCacheManager) (f resp : String) (now ttl : Nat) :
    (cachePut c f resp now ttl).cache.find? (fun e => e.fingerprint == f)
      = some ⟨f, resp, now + ttl⟩ := by
  by_cases h : c.cache.any (fun e => e.fingerprint == f) = true
  · rw [cachePut, if_pos h]
    exact find?_overwrite f resp (now + ttl) c.cache h
  · rw [cachePut, if_neg h]
    have h' : ∀ e ∈ c.cache, (e.fingerprint == f) = false := by
      intro e he
      rw [Bool.eq_false_iff]
      intro hc
      exact h (List.any_eq_true.mpr ⟨e, he, hc⟩)
    have hbase : ∀ e ∈ (if c.max_entries ≤ c.cache.length
        then c.cache.drop 1 else c.cache), (e.fingerprint == f) = false := by
      intro e he
      apply h'
      by_cases hcap : c.max_entries ≤ c.cache.length
      · rw [if_pos hcap] at he; exact List.mem_of_mem_drop he
      · rw [if_neg hcap] at he; exact he
    exact find?_append_new f resp (now + ttl) _ hbase

/-! ### Claim C6 -/

/-- C6: after `put(f, r, ttl=T)` at time `now`, a `get(f)` at any time
strictly before the expiry `now + T` returns `r`, and a `get(f)` at any
time at or after the expiry returns a miss; `get` is a pure read of the
cache state, so it never extends an entry's expiry. -/
theorem claim_C6 (c : ResponseCacheManager) (f resp : String) (now ttl t : Nat) :
    (t < now + ttl → cacheGet (cachePut c f resp now ttl) f t = some resp) ∧
    (now + ttl ≤ t → cacheGet (cachePut c f resp now ttl) f t = none) := by
  have hfind := cachePut_find c f resp now ttl
  constructor
  · intro h
    rw [cacheGet, hfind]
    simp [h]
  · intro h
    rw [cacheGet, hfind]
    simp [Nat.not_lt.mpr h]

/-- C6 witness: a put followed by a get one tick before expiry hits and a
get at expiry misses. -/
theorem claim_C6_witness :
    cacheGet (cachePut ⟨[], 5⟩ ("fp") ("resp") 10 60) ("fp") 69
        = some ("resp") ∧
    cacheGet (cachePut ⟨[], 5⟩ ("fp") ("resp") 10 60) ("fp") 70 = none :=
  ⟨(claim_C6 ⟨[], 5⟩ ("fp") ("resp") 10 60 69).1 (by omega),
   (claim_C6 ⟨[], 5⟩ ("fp") ("resp") 10 60 70).2 (by omega)⟩

/-! ### Claim C7 -/

/-- C7: the cache never exceeds the configured capacity; inserting a new
distinct fingerprint when the cache is at capacity evicts exactly the
oldest-inserted entry (the head of the insertion order); overwriting an
existing fingerprint leaves the fingerprint sequence — hence the eviction
order — unchanged. -/
theorem claim_C7 (c : ResponseCacheManager) (f resp : String) (now ttl : Nat)
    (hmax : 1 ≤ c.max_entries) (hsize : c.cache.length ≤ c.max_entries) :
    (cachePut c f resp now ttl).cache.length ≤ c.max_entries ∧
    (c.cache.length = c.max_entries →
      c.cache.any (fun e => e.fingerprint == f) = false →
      (cachePut c f resp now ttl).cache
        = c.cache.drop 1 ++ [⟨f, resp, now + ttl⟩]) ∧
    (c.cache.any (fun e => e.fingerprint == f) = true →
      (cachePut c f resp now ttl).cache.map CacheEntry.fingerprint
        = c.cache.map CacheEntry.fingerprint) := by
  refine ⟨?_, ?_, ?_⟩
  · by_cases h : c.cache.any (fun e => e.fingerprint == f) = true
    · rw [cachePut, if_pos h]
      simpa using hsize
    · rw [cachePut, if_neg h]
      by_cases hcap : c.max_entries ≤ c.cache.length
      · rw [if_pos hcap]
        simp only [List.length_append, List.length_drop, List.length_singleton]
        omega
      · rw [if_neg hcap]
        simp only [List.length_append, List.length_singleton]
        omega
  · intro hlen hany
    rw [cachePut, if_neg (by rw [hany]; exact Bool.false_ne_true)]
    rw [if_pos (by omega : c.max_entries ≤ c.cache.length)]
  · intro hany
    rw [cachePut, if_pos hany]
    simp only [List.map_map]
    have hfun : (CacheEntry.fingerprint ∘ fun e =>
        if e.fingerprint == f then (⟨f, resp, now + ttl⟩ : CacheEntry) else e)
          = CacheEntry.fingerprint := by
      funext e
      by_cases he : (e.fingerprint == f) = true
      · have : e.fingerprint = f := by simpa using he
        simp [Function.comp, he, this]
      · have he' : (e.fingerprint == f) = false := by simpa using he
        simp [Function.comp, he']
    rw [hfun]

/-- C7 witness: a cache at capacity 2 receiving a third distinct
fingerprint evicts exactly its oldest entry, and an overwrite keeps the
fingerprint order. -/
theorem claim_C7_witness :
    (cachePut ⟨[⟨("a"), ("ra"), 50⟩, ⟨("b"), ("rb"), 60⟩], 2⟩
        ("c") ("rc") 10 5).cache
      = [⟨("b"), ("rb"), 60⟩, ⟨("c"), ("rc"), 15⟩] ∧
    (cachePut ⟨[⟨("a"), ("ra"), 50⟩, ⟨("b"), ("rb"), 60⟩], 2⟩
        ("a") ("ra2") 10 5).cache.map CacheEntry.fingerprint
      = [("a"), ("b")] := by
  constructor
  · have h := (claim_C7 ⟨[⟨("a"), ("ra"), 50⟩, ⟨("b"), ("rb"), 60⟩], 2⟩
      ("c") ("rc") 10 5 (by decide) (by decide)).2.1 (by decide) (by decide)
    simpa using h
  · have h := (claim_C7 ⟨[⟨("a"), ("ra"), 50⟩, ⟨("b"), ("rb"), 60⟩], 2⟩
      ("a") ("ra2") 10 5 (by decide) (by decide)).2.2 (by decide)
    simpa using h

/-! ### Rotation lemmas -/

theorem acquireN_pop (pool : List String) :
    ∀ j stack, j ≤ stack.length →
      acquireN ⟨pool, stack⟩ j
        = ((stack.take j).map some, ⟨pool, stack.drop j⟩) := by
  intro j
  induction j with
  | zero => intro stack h; simp [acquireN]
  | succ j ih =>
    intro stack h
    cases stack with
    | nil => simp at h
    | cons k rest =>
      rw [acquireN, acquire]
      simp only [List.take_succ_cons, List.drop_succ_cons, List.map_cons]
      rw [ih rest (Nat.le_of_succ_le_succ h)]

theorem acquireN_refill (pool : List String) (j : Nat) (hj : j ≤ pool.length) :
    (acquireN ⟨pool, []⟩ j).1 = (pool.take j).map some := by
  cases j with
  | zero => rfl
  | succ j =>
    cases pool with
    | nil => simp at hj
    | cons k rest =>
      rw [acquireN, acquire]
      have hr := acquireN_pop (k :: rest) j rest
        (by simpa using Nat.le_of_succ_le_succ hj)
      simp only [List.take_succ_cons, List.map_cons]
      rw [hr]

theorem acquireN_add (a : Nat) :
    ∀ (m : APIKeyManager) (b : Nat),
      acquireN m (a + b)
        = ((acquireN m a).1 ++ (acquireN (acquireN m a).2 b).1,
           (acquireN (acquireN m a).2 b).2) := by
  induction a with
  | zero => intro m b; simp [acquireN]
  | succ a ih =>
    intro m b
    have hc : a + 1 + b = (a + b) + 1 := by omega
    rw [hc]
    rw [acquireN, acquireN]
    simp only [ih]
    simp

theorem filterMap_id_map_some (l : List String) :
    (l.map some).filterMap id = l := by
  induction l with
  | nil => rfl
  | cons a l ih => simp [List.filterMap_cons, ih]

/-! ### Claim C8 -/

/-- C8: for a live pool of N credentials and a rotation cursor that is a
suffix of the pool (the invariant maintained by `_reset_key_stack` and
`acquire`), N consecutive `acquire()` calls with no intervening failures
return each credential of the pool exactly once: collectively a
permutation of the pool. -/
theorem claim_C8 (m : APIKeyManager)
    (hsuf : List.IsSuffix m.key_stack m.api_keys) :
    List.Perm ((acquireN m m.api_keys.length).1.filterMap id) m.api_keys := by
  obtain ⟨pool, stack⟩ := m
  obtain ⟨t, ht⟩ := hsuf
  simp only at ht ⊢
  subst ht
  have hN : (t ++ stack).length = stack.length + t.length := by
    simp [List.length_append]; omega
  rw [hN, acquireN_add stack.length ⟨t ++ stack, stack⟩ t.length]
  have h1 := acquireN_pop (t ++ stack) stack.length stack (le_refl _)
  simp only [List.take_length, List.drop_length] at h1
  rw [h1]
  have h2 := acquireN_refill (t ++ stack) t.length (by simp)
  rw [h2]
  have h3 : (t ++ stack).take t.length = t := List.take_left t stack
  rw [h3]
  rw [List.filterMap_append, filterMap_id_map_some, filterMap_id_map_some]
  exact List.perm_append_comm

/-- C8 witness: a pool of three credentials with the cursor mid-cycle
yields each credential exactly once over three acquisitions. -/
theorem claim_C8_witness :
    List.IsSuffix [("b"), ("c")] [("a"), ("b"), ("c")] ∧
    List.Perm ((acquireN ⟨[("a"), ("b"), ("c")], [("b"), ("c")]⟩
      ([("a"), ("b"), ("c")] : List String).length).1.filterMap id)
      [("a"), ("b"), ("c")] :=
  ⟨⟨[("a")], rfl⟩, claim_C8 ⟨[("a"), ("b"), ("c")], [("b"), ("c")]⟩ ⟨[("a")], rfl⟩⟩

/-! ### Claim C1 -/

/-- C1 counterexample: with `SKIP_CHECK_API_KEY` enabled and configured
keys `[k1, k2]` of which only `k1` probes valid, the candidate after the
first valid key is not handed to any background validation task
(`background_args = none`): it is placed directly into the live pool
without ever being probed, refuting the claim as stated. -/
theorem claim_C1_counterexample :
    (startup_event true vK1 [("k1"), ("k2")] []).background_args = none ∧
    (startup_event true vK1 [("k1"), ("k2")] []).api_keys = [("k1"), ("k2")] ∧
    Ev.probe ("k2") ∉ (startup_event true vK1 [("k1"), ("k2")] []).trace := by
  decide

/-- C1 (amended): when `SKIP_CHECK_API_KEY` is disabled, startup probes the
candidates strictly in configured order, installs the first valid one into
the live pool and rebuilds the rotation cursor before serving begins, and
hands exactly the candidates after it, in configured order, to the
background task; that task probes them one at a time with an inter-probe
delay, appending each valid one to the pool and collecting each invalid
one. -/
theorem claim_C1 (valid : String → Bool) (pre post si : List String) (k : String)
    (hpre : ∀ x ∈ pre, valid x = false) (hk : valid k = true)
    (hnd : (pre ++ k :: post).Nodup) (hpost : post ≠ []) :
    (startup_event false valid (pre ++ k :: post) si).first_valid_key = some k ∧
    (startup_event false valid (pre ++ k :: post) si).api_keys = [k] ∧
    (startup_event false valid (pre ++ k :: post) si).trace
      = (pre ++ [k]).map Ev.probe ++ [Ev.append k, Ev.resetStack] ∧
    (startup_event false valid (pre ++ k :: post) si).background_args
      = some (post, pre) ∧
    (check_remaining_keys_async valid post pre [k] si).api_keys
      = k :: post.filter valid ∧
    (check_remaining_keys_async valid post pre [k] si).local_invalid_keys
      = post.filter (fun x => !valid x) ∧
    (checkKeysLoop valid post [k] [] false).trace = segTrace valid post := by
  have hffv := findFirstValidKey_decomp valid pre post k hpre hk
  have hknp : k ∉ post := by
    have h1 : (k :: post).Nodup := hnd.of_append_right
    exact (List.nodup_cons.mp h1).1
  have hpnd : post.Nodup := by
    have h1 : (k :: post).Nodup := hnd.of_append_right
    exact (List.nodup_cons.mp h1).2
  have hdisj : ∀ x ∈ post, x ∉ ([k] : List String) := by
    intro x hx
    rw [List.mem_singleton]
    rintro rfl
    exact hknp hx
  have hloop := checkKeysLoop_spec valid post ([k]) [] false hdisj hpnd
  have hne : post.isEmpty = false := by
    cases post with
    | nil => exact absurd rfl hpost
    | cons p ps => rfl
  refine ⟨?_, ?_, ?_, ?_, ?_, ?_, ?_⟩
  · simp [startup_event, hffv, hne]
  · simp [startup_event, hffv, hne]
  · simp [startup_event, hffv, hne]
  · simp [startup_event, hffv, hne]
  · simp [check_remaining_keys_async, hloop]
  · simp [check_remaining_keys_async, hloop]
  · rw [hloop]

/-- C1 witness: four configured keys of which the second and third are
valid; the first valid key `b` is installed synchronously and exactly
`[c, d]` is handed to the background task, which appends `c` and collects
`d`. -/
theorem claim_C1_witness :
    (∀ x ∈ [("a")], vBC x = false) ∧ vBC ("b") = true ∧
    ([("a")] ++ ("b") :: [("c"), ("d")]).Nodup ∧
    ([("c"), ("d")] : List String) ≠ [] ∧
    (startup_event false vBC ([("a")] ++ ("b") :: [("c"), ("d")]) []).background_args
      = some ([("c"), ("d")], [("a")]) ∧
    (check_remaining_keys_async vBC [("c"), ("d")] [("a")] [("b")] []).api_keys
      = ("b") :: [("c"), ("d")].filter vBC := by
  refine ⟨by decide, by decide, by decide, by decide, ?_, ?_⟩
  · exact (claim_C1 vBC [("a")] [("c"), ("d")] [] ("b") (by decide) (by decide)
      (by decide) (by decide)).2.2.2.1
  · exact (claim_C1 vBC [("a")] [("c"), ("d")] [] ("b") (by decide) (by decide)
      (by decide) (by decide)).2.2.2.2.1

/-! ### Trace shape of the background task -/

theorem traceHasReset_reset_if (c : Bool) :
    traceHasReset (if c then [Ev.resetStack] else []) = c := by
  cases c <;> rfl

theorem traceHasAppend_reset_if (c : Bool) :
    traceHasAppend (if c then [Ev.resetStack] else []) = false := by
  cases c <;> rfl

theorem traceHasReset_save_if (c : Bool) :
    traceHasReset (if c then [Ev.saveSettings] else []) = false := by
  cases c <;> rfl

theorem traceHasAppend_save_if (c : Bool) :
    traceHasAppend (if c then [Ev.saveSettings] else []) = false := by
  cases c <;> rfl

theorem resetCount_reset_if (c : Bool) :
    resetCount (if c then [Ev.resetStack] else []) = (if c then 1 else 0) := by
  cases c <;> rfl

theorem resetCount_save_if (c : Bool) :
    resetCount (if c then [Ev.saveSettings] else []) = 0 := by
  cases c <;> rfl

theorem check_remaining_trace_cases (valid : String → Bool)
    (ks ii pool si2 : List String) :
    (check_remaining_keys_async valid ks ii pool si2).trace
      = (checkKeysLoop valid ks pool [] false).trace
        ++ (if (checkKeysLoop valid ks pool [] false).found_valid_keys
            then [Ev.resetStack] else [])
        ++ (if (mergeInvalidKeys si2
              (ii ++ (checkKeysLoop valid ks pool [] false).local_invalid_keys)).2
            then [Ev.saveSettings] else []) := by
  simp only [check_remaining_keys_async]
  cases hf : (checkKeysLoop valid ks pool [] false).found_valid_keys <;>
    cases hm : (mergeInvalidKeys si2
        (ii ++ (checkKeysLoop valid ks pool [] false).local_invalid_keys)).2 <;>
      simp [hf, hm]

theorem bg_everyAppend (valid : String → Bool) (ks ii pool si2 : List String) :
    everyAppendEventuallyReset
      (check_remaining_keys_async valid ks ii pool si2).trace = true := by
  have hfound := checkKeysLoop_found valid ks pool [] false
  rw [Bool.false_or] at hfound
  rw [check_remaining_trace_cases]
  cases hf : (checkKeysLoop valid ks pool [] false).found_valid_keys with
  | true =>
    rw [if_pos rfl, List.append_assoc, List.singleton_append,
      everyAppendEventuallyReset_append_reset]
    split <;> rfl
  | false =>
    have hA : traceHasAppend (checkKeysLoop valid ks pool [] false).trace = false := by
      rw [← hfound, hf]
    rw [if_neg (by simp), List.append_nil]
    apply everyAppendEventuallyReset_of_no_append
    rw [traceHasAppend_append, hA, traceHasAppend_save_if]
    rfl

theorem bg_appendsProbed (valid : String → Bool) (ks ii pool si2 : List String) :
    ∀ seen, appendsProbed
      (check_remaining_keys_async valid ks ii pool si2).trace seen = true := by
  intro seen
  rw [check_remaining_trace_cases]
  rw [appendsProbed_append, appendsProbed_append]
  rw [checkKeysLoop_appendsProbed]
  rw [appendsProbed_of_no_append _ (traceHasAppend_reset_if _)]
  rw [appendsProbed_of_no_append _ (traceHasAppend_save_if _)]
  rfl

/-! ### Final-state characterisations of startup plus background task -/

theorem stb_none_eq (valid : String → Bool) (keys si : List String)
    (h : (findFirstValidKey valid keys).1 = none) :
    startup_then_background false valid keys si
      = ⟨[], (mergeInvalidKeys si keys).1, (mergeInvalidKeys si keys).2,
         if (mergeInvalidKeys si keys).2 = true
         then keys.map Ev.probe ++ [Ev.saveSettings]
         else keys.map Ev.probe⟩ := by
  obtain ⟨htuple, _⟩ := findFirstValidKey_none valid keys h
  cases hm : (mergeInvalidKeys si keys).2 <;>
    simp [startup_then_background, startup_event, htuple, hm]

theorem stb_skip_none_eq (valid : String → Bool) (keys si : List String)
    (h : (findFirstValidKey valid keys).1 = none) :
    startup_then_background true valid keys si
      = ⟨[], si, false, keys.map Ev.probe ++ [Ev.resetStack]⟩ := by
  obtain ⟨htuple, _⟩ := findFirstValidKey_none valid keys h
  simp [startup_then_background, startup_event, htuple]

theorem stb_some_nil_eq (valid : String → Bool) (pre si : List String) (k : String)
    (hpre : ∀ x ∈ pre, valid x = false) (hk : valid k = true) :
    startup_then_background false valid (pre ++ [k]) si
      = ⟨[k], (mergeInvalidKeys si pre).1, (mergeInvalidKeys si pre).2,
         if (mergeInvalidKeys si pre).2 = true
         then (pre ++ [k]).map Ev.probe ++ [Ev.append k, Ev.resetStack]
              ++ [Ev.saveSettings]
         else (pre ++ [k]).map Ev.probe ++ [Ev.append k, Ev.resetStack]⟩ := by
  have hd := findFirstValidKey_decomp valid pre [] k hpre hk
  cases hm : (mergeInvalidKeys si pre).2 <;>
    simp [startup_then_background, startup_event, hd, hm]

theorem stb_skip_some_eq (valid : String → Bool) (pre post si : List String)
    (k : String) (hpre : ∀ x ∈ pre, valid x = false) (hk : valid k = true) :
    startup_then_background true valid (pre ++ k :: post) si
      = ⟨[k] ++ post, si, false,
         ((pre ++ [k]).map Ev.probe ++ [Ev.append k, Ev.resetStack])
           ++ post.map Ev.append ++ [Ev.resetStack]⟩ := by
  have hd := findFirstValidKey_decomp valid pre post k hpre hk
  simp [startup_then_background, startup_event, hd]

theorem stb_some_cons_eq (valid : String → Bool) (pre post si : List String)
    (k : String) (hpre : ∀ x ∈ pre, valid x = false) (hk : valid k = true)
    (hpost : post ≠ []) :
    startup_then_background false valid (pre ++ k :: post) si
      = ⟨(check_remaining_keys_async valid post pre [k] si).api_keys,
         (check_remaining_keys_async valid post pre [k] si).invalid_api_keys,
         (check_remaining_keys_async valid post pre [k] si).saved,
         ((pre ++ [k]).map Ev.probe ++ [Ev.append k, Ev.resetStack])
           ++ (check_remaining_keys_async valid post pre [k] si).trace⟩ := by
  have hd := findFirstValidKey_decomp valid pre post k hpre hk
  have hne : post.isEmpty = false := by
    cases post with
    | nil => exact absurd rfl hpost
    | cons a b => rfl
  simp [startup_then_background, startup_event, hd, hne]

/-! ### Claim C2 -/

/-- C2 counterexample: a background check of two keys that both probe
valid appends each of them to the live pool and only afterwards rebuilds
the rotation cursor once: between the first append and the second, the
cursor is not rebuilt, refuting the claim that the cursor is rebuilt after
each background append before the next membership change. -/
theorem claim_C2_counterexample :
    appendsCursorFresh
      (check_remaining_keys_async vAll [("k1"), ("k2")] [] [] []).trace false
      = false := by
  decide

/-- C2 (amended): every pool addition performed by startup or the
background validation task is eventually followed by a rotation-cursor
rebuild, but the background task batches its additions: it rebuilds the
cursor exactly once, after its last probe, if and only if it appended at
least one credential — no rebuild separates two consecutive background
appends. -/
theorem claim_C2 (skip : Bool) (valid : String → Bool)
    (keys si ks ii pool si2 : List String) :
    everyAppendEventuallyReset
      (startup_then_background skip valid keys si).trace = true ∧
    traceHasReset (check_remaining_keys_async valid ks ii pool si2).trace
      = traceHasAppend (check_remaining_keys_async valid ks ii pool si2).trace ∧
    noAppendAfterReset
      (check_remaining_keys_async valid ks ii pool si2).trace = true ∧
    resetCount (check_remaining_keys_async valid ks ii pool si2).trace
      = (if traceHasAppend (check_remaining_keys_async valid ks ii pool si2).trace
         then 1 else 0) := by
  have hnr := checkKeysLoop_no_reset valid ks pool [] false
  have hfound := checkKeysLoop_found valid ks pool [] false
  rw [Bool.false_or] at hfound
  have hhA : traceHasAppend (check_remaining_keys_async valid ks ii pool si2).trace
      = (checkKeysLoop valid ks pool [] false).found_valid_keys := by
    rw [check_remaining_trace_cases, traceHasAppend_append, traceHasAppend_append,
      traceHasAppend_reset_if, traceHasAppend_save_if, ← hfound]
    simp
  refine ⟨?_, ?_, ?_, ?_⟩
  · rcases hf : (findFirstValidKey valid keys).1 with _ | k
    · cases skip with
      | true =>
        rw [stb_skip_none_eq valid keys si hf]
        rw [everyAppendEventuallyReset_append_reset]
        rfl
      | false =>
        rw [stb_none_eq valid keys si hf]
        apply everyAppendEventuallyReset_of_no_append
        split
        · rw [traceHasAppend_append, traceHasAppend_map_probe]; rfl
        · exact traceHasAppend_map_probe keys
    · obtain ⟨pre, post, rfl, hpre, hk⟩ := findFirstValidKey_some valid keys k hf
      cases skip with
      | true =>
        rw [stb_skip_some_eq valid pre post si k hpre hk]
        rw [everyAppendEventuallyReset_append_reset]
        rfl
      | false =>
        cases post with
        | nil =>
          rw [stb_some_nil_eq valid pre si k hpre hk]
          split
          · have hsh : (pre ++ [k]).map Ev.probe ++ [Ev.append k, Ev.resetStack]
                  ++ [Ev.saveSettings]
                = ((pre ++ [k]).map Ev.probe ++ [Ev.append k])
                  ++ Ev.resetStack :: [Ev.saveSettings] := by
              simp
            rw [hsh, everyAppendEventuallyReset_append_reset]
            rfl
          · have hsh : (pre ++ [k]).map Ev.probe ++ [Ev.append k, Ev.resetStack]
                = ((pre ++ [k]).map Ev.probe ++ [Ev.append k]) ++ Ev.resetStack :: [] := by
              simp
            rw [hsh, everyAppendEventuallyReset_append_reset]
            rfl
        | cons p ps =>
          rw [stb_some_cons_eq valid pre (p :: ps) si k hpre hk (by simp)]
          have hsh : ((pre ++ [k]).map Ev.probe ++ [Ev.append k, Ev.resetStack])
              ++ (check_remaining_keys_async valid (p :: ps) pre [k] si).trace
              = ((pre ++ [k]).map Ev.probe ++ [Ev.append k])
                ++ Ev.resetStack
                  :: (check_remaining_keys_async valid (p :: ps) pre [k] si).trace := by
            simp
          rw [hsh, everyAppendEventuallyReset_append_reset]
          exact bg_everyAppend valid (p :: ps) pre [k] si
  · rw [hhA, check_remaining_trace_cases, traceHasReset_append, traceHasReset_append,
      traceHasReset_reset_if, traceHasReset_save_if, hnr]
    simp
  · rw [check_remaining_trace_cases]
    cases hf : (checkKeysLoop valid ks pool [] false).found_valid_keys with
    | true =>
      rw [if_pos rfl, List.append_assoc, noAppendAfterReset_append_of_no_reset _ _ hnr]
      rw [List.singleton_append]
      split <;> rfl
    | false =>
      rw [if_neg (by simp), List.append_nil,
        noAppendAfterReset_append_of_no_reset _ _ hnr]
      split <;> rfl
  · rw [hhA, check_remaining_trace_cases, resetCount_append, resetCount_append,
      resetCount_reset_if, resetCount_save_if, resetCount_of_no_reset _ hnr]
    simp

/-! ### Projections of the background task result -/

theorem check_remaining_api_keys (valid : String → Bool)
    (ks ii pool si2 : List String) :
    (check_remaining_keys_async valid ks ii pool si2).api_keys
      = (checkKeysLoop valid ks pool [] false).api_keys := by
  simp [check_remaining_keys_async]

theorem check_remaining_invalid (valid : String → Bool)
    (ks ii pool si2 : List String) :
    (check_remaining_keys_async valid ks ii pool si2).invalid_api_keys
      = (mergeInvalidKeys si2
          (ii ++ (checkKeysLoop valid ks pool [] false).local_invalid_keys)).1 := by
  simp [check_remaining_keys_async]

theorem check_remaining_saved (valid : String → Bool)
    (ks ii pool si2 : List String) :
    (check_remaining_keys_async valid ks ii pool si2).saved
      = (mergeInvalidKeys si2
          (ii ++ (checkKeysLoop valid ks pool [] false).local_invalid_keys)).2 := by
  simp [check_remaining_keys_async]

theorem appendsProbed_probes_tail (pre : List String) (k : String) (t₂ : List Ev)
    (h2 : ∀ seen, appendsProbed t₂ seen = true) :
    appendsProbed ((pre ++ [k]).map Ev.probe ++ Ev.append k :: t₂) [] = true := by
  rw [appendsProbed_append, appendsProbed_of_no_append _ (traceHasAppend_map_probe _)]
  have hmem : k ∈ probesRev (List.map Ev.probe pre ++ [Ev.probe k]) := by
    have hsh : List.map Ev.probe pre ++ [Ev.probe k] = (pre ++ [k]).map Ev.probe := by
      simp
    rw [hsh, probesRev_map_probe]
    simp
  simp [appendsProbed, h2, hmem]

/-! ### Claim C3 -/

/-- C3 counterexample: with `SKIP_CHECK_API_KEY` enabled, `k2` ends up in
the live pool although it was never probed (no probe event for it exists
in the trace) and probing it would fail — refuting the claim that every
credential ever present in the live pool has been successfully probed
before becoming eligible. -/
theorem claim_C3_counterexample :
    ("k2") ∈ (startup_then_background true vK1 [("k1"), ("k2")] []).api_keys ∧
    vK1 ("k2") = false ∧
    Ev.probe ("k2") ∉ (startup_then_background true vK1 [("k1"), ("k2")] []).trace := by
  decide

/-- C3 (amended): when `SKIP_CHECK_API_KEY` is disabled, a credential
enters the live pool only after a successful probe (every pool member
probes valid and every pool addition in the trace is preceded by a probe
of the same key), and every newly persisted invalid credential failed its
probe. -/
theorem claim_C3 (valid : String → Bool) (keys si : List String) :
    (∀ x ∈ (startup_then_background false valid keys si).api_keys,
      valid x = true) ∧
    appendsProbed (startup_then_background false valid keys si).trace [] = true ∧
    (∀ x ∈ (startup_then_background false valid keys si).invalid_api_keys,
      x ∉ si → valid x = false) := by
  rcases hf : (findFirstValidKey valid keys).1 with _ | k
  · obtain ⟨htuple, hall⟩ := findFirstValidKey_none valid keys hf
    rw [stb_none_eq valid keys si hf]
    refine ⟨?_, ?_, ?_⟩
    · intro x hx
      exact absurd hx (List.not_mem_nil x)
    · split
      · apply appendsProbed_of_no_append
        rw [traceHasAppend_append, traceHasAppend_map_probe]
        rfl
      · exact appendsProbed_of_no_append _ (traceHasAppend_map_probe _) _
    · intro x hx hxs
      rcases (mem_mergeInvalidKeys si keys x).mp hx with h | h
      · exact absurd h hxs
      · exact hall x h
  · obtain ⟨pre, post, rfl, hpre, hk⟩ := findFirstValidKey_some valid keys k hf
    cases post with
    | nil =>
      rw [stb_some_nil_eq valid pre si k hpre hk]
      refine ⟨?_, ?_, ?_⟩
      · intro x hx
        rw [List.mem_singleton] at hx
        rw [hx]
        exact hk
      · split
        · have hsh : (pre ++ [k]).map Ev.probe ++ [Ev.append k, Ev.resetStack]
                ++ [Ev.saveSettings]
              = (pre ++ [k]).map Ev.probe
                ++ Ev.append k :: [Ev.resetStack, Ev.saveSettings] := by
            simp
          rw [hsh]
          exact appendsProbed_probes_tail pre k _ (fun seen => rfl)
        · exact appendsProbed_probes_tail pre k _ (fun seen => rfl)
      · intro x hx hxs
        rcases (mem_mergeInvalidKeys si pre x).mp hx with h | h
        · exact absurd h hxs
        · exact hpre x h
    | cons p ps =>
      rw [stb_some_cons_eq valid pre (p :: ps) si k hpre hk (by simp)]
      refine ⟨?_, ?_, ?_⟩
      · intro x hx
        rw [check_remaining_api_keys] at hx
        rcases checkKeysLoop_pool_mem valid (p :: ps) ([k]) [] false x hx with h | h
        · rw [List.mem_singleton] at h
          rw [h]
          exact hk
        · exact h
      · have hsh : ((pre ++ [k]).map Ev.probe ++ [Ev.append k, Ev.resetStack])
            ++ (check_remaining_keys_async valid (p :: ps) pre [k] si).trace
            = (pre ++ [k]).map Ev.probe
              ++ Ev.append k :: Ev.resetStack
                :: (check_remaining_keys_async valid (p :: ps) pre [k] si).trace := by
          simp
        rw [hsh]
        apply appendsProbed_probes_tail
        intro seen
        simp only [appendsProbed]
        exact bg_appendsProbed valid (p :: ps) pre ([k]) si seen
      · intro x hx hxs
        rw [check_remaining_invalid] at hx
        rcases (mem_mergeInvalidKeys si _ x).mp hx with h | h
        · exact absurd h hxs
        · rcases List.mem_append.mp h with h' | h'
          · exact hpre x h'
          · rcases checkKeysLoop_linv_mem valid (p :: ps) ([k]) [] false x h' with h'' | h''
            · exact absurd h'' (List.not_mem_nil x)
            · exact h''

/-- C3 witness: with candidates `[a, b, c, d]` of which `b` and `c` probe
valid, the final pool member `c` probes valid and every pool addition in
the trace was preceded by its probe. -/
theorem claim_C3_witness :
    vBC ("c") = true ∧
    appendsProbed
      (startup_then_background false vBC [("a"), ("b"), ("c"), ("d")] []).trace []
      = true := by
  constructor
  · exact (claim_C3 vBC [("a"), ("b"), ("c"), ("d")] []).1 ("c") (by decide)
  · exact (claim_C3 vBC [("a"), ("b"), ("c"), ("d")] []).2.1

/-! ### Claim C4 -/

/-- C4 counterexample: with `SKIP_CHECK_API_KEY` enabled, `k1` is probed
at startup and fails, yet the persisted invalid set stays empty and no
save happens — refuting the claim that every credential classified invalid
is merged into the persisted invalid set. -/
theorem claim_C4_counterexample :
    vK2 ("k1") = false ∧
    Ev.probe ("k1") ∈ (startup_then_background true vK2 [("k1"), ("k2")] []).trace ∧
    (startup_then_background true vK2 [("k1"), ("k2")] []).invalid_api_keys = [] ∧
    (startup_then_background true vK2 [("k1"), ("k2")] []).saved = false := by
  decide

/-- C4 (amended): when `SKIP_CHECK_API_KEY` is disabled, every credential
whose probe failed (at startup or during background validation) is absent
from the live pool for the remainder of the process, appears in the
persisted invalid set, and — when it was not persisted before — a settings
save is performed. -/
theorem claim_C4 (valid : String → Bool) (keys si : List String) (x : String)
    (hx : valid x = false)
    (hp : Ev.probe x ∈ (startup_then_background false valid keys si).trace) :
    x ∉ (startup_then_background false valid keys si).api_keys ∧
    x ∈ (startup_then_background false valid keys si).invalid_api_keys ∧
    (x ∉ si → (startup_then_background false valid keys si).saved = true) := by
  rcases hf : (findFirstValidKey valid keys).1 with _ | k
  · obtain ⟨htuple, hall⟩ := findFirstValidKey_none valid keys hf
    rw [stb_none_eq valid keys si hf] at hp ⊢
    have hxk : x ∈ keys := by
      split at hp <;> simp at hp <;> exact hp
    refine ⟨List.not_mem_nil x, ?_, ?_⟩
    · exact (mem_mergeInvalidKeys si keys x).mpr (Or.inr hxk)
    · intro hxs
      exact mergeInvalidKeys_saved si keys x hxk hxs
  · obtain ⟨pre, post, rfl, hpre, hk⟩ := findFirstValidKey_some valid keys k hf
    have hxk : x ≠ k := by
      rintro rfl
      rw [hk] at hx
      exact absurd hx (by simp)
    cases post with
    | nil =>
      rw [stb_some_nil_eq valid pre si k hpre hk] at hp ⊢
      have hxpre : x ∈ pre := by
        split at hp <;> simp at hp <;>
          rcases hp with hp | hp <;>
            first
              | exact hp
              | exact absurd hp hxk
      refine ⟨?_, ?_, ?_⟩
      · simp [hxk]
      · exact (mem_mergeInvalidKeys si pre x).mpr (Or.inr hxpre)
      · intro hxs
        exact mergeInvalidKeys_saved si pre x hxpre hxs
    | cons p ps =>
      rw [stb_some_cons_eq valid pre (p :: ps) si k hpre hk (by simp)] at hp ⊢
      have hsrc : x ∈ pre ∨ x ∈ (p :: ps) := by
        rcases List.mem_append.mp hp with h | h
        · left
          simp at h
          rcases h with h | h
          · exact h
          · exact absurd h hxk
        · right
          rw [check_remaining_trace_cases] at h
          rcases List.mem_append.mp h with h' | h'
          · rcases List.mem_append.mp h' with h'' | h''
            · exact (checkKeysLoop_probe_iff valid (p :: ps) ([k]) [] false x).mp h''
            · exfalso
              revert h''
              split <;> simp
          · exfalso
            revert h'
            split <;> simp
      have hxnew : x ∈ pre ++ (checkKeysLoop valid (p :: ps) ([k]) [] false).local_invalid_keys := by
        rcases hsrc with h | h
        · exact List.mem_append.mpr (Or.inl h)
        · exact List.mem_append.mpr
            (Or.inr (checkKeysLoop_linv_complete valid (p :: ps) ([k]) [] false x h hx))
      refine ⟨?_, ?_, ?_⟩
      · rw [check_remaining_api_keys]
        intro hmem
        rcases checkKeysLoop_pool_mem valid (p :: ps) ([k]) [] false x hmem with h | h
        · rw [List.mem_singleton] at h
          exact hxk h
        · rw [h] at hx
          exact absurd hx (by simp)
      · rw [check_remaining_invalid]
        exact (mem_mergeInvalidKeys si _ x).mpr (Or.inr hxnew)
      · intro hxs
        rw [check_remaining_saved]
        exact mergeInvalidKeys_saved si _ x hxnew hxs

/-- C4 witness: with candidates `[a, b, c, d]` of which `b` and `c` probe
valid, the startup-probed invalid key `a` is absent from the final pool,
present in the persisted invalid set, and a save was performed. -/
theorem claim_C4_witness :
    vBC ("a") = false ∧
    ("a") ∉ (startup_then_background false vBC [("a"), ("b"), ("c"), ("d")] []).api_keys ∧
    ("a") ∈ (startup_then_background false vBC [("a"), ("b"), ("c"), ("d")] []).invalid_api_keys ∧
    (startup_then_background false vBC [("a"), ("b"), ("c"), ("d")] []).saved = true := by
  refine ⟨by decide, ?_, ?_, ?_⟩
  · exact (claim_C4 vBC [("a"), ("b"), ("c"), ("d")] [] ("a") (by decide) (by decide)).1
  · exact (claim_C4 vBC [("a"), ("b"), ("c"), ("d")] [] ("a") (by decide) (by decide)).2.1
  · exact (claim_C4 vBC [("a"), ("b"), ("c"), ("d")] [] ("a") (by decide) (by decide)).2.2
      (by decide)

end Gateway
